import Mathlib

/-!
Shallow embedding of the virtual-DOM reconciler in `src/vdom.rs`
(types `VNode` and `Patch`, functions `diff` and `apply_patches`).

Modelling choices:
* The source stores nodes behind `Rc<RefCell<...>>` handles; the embedding
  uses plain inductive values, which is faithful for strict trees (no
  sharing, no cycles) as required by the data-model invariant.
* Rust `HashMap<String, V>` values are modelled as association lists
  (`List (String × V)`) with `getV` (lookup), `insertM` (insert-or-replace)
  and `removeM` mirroring `HashMap::get` / `insert` / `remove`; iteration
  order of a hash map is determinized to list order.
* A boxed event-handler closure `Box<dyn Fn()>` is modelled by its identity:
  `Handler.user i` stands for a caller-allocated closure with pointer
  identity `i`, and `Handler.noop` for the dummy closure the diff inserts
  as a removal marker.  The pointer comparison of the source is modelled
  as equality of identities.
* A `dyn Any` value (component state, `UpdateState` payload) is modelled by
  `AnyV`: a String, a value of some other dynamic type (`AnyV.other`), or a
  boxed `HashMap<String, Box<dyn Any>>` (`AnyV.amap`); `downcastString`
  models `downcast_ref::<String>()`.
* The opaque `component: Box<dyn Component>` field is not inspected by
  `diff` or `apply_patches` and is omitted from the model.
-/

namespace Vdom

/-- Identity of a boxed event-handler closure. -/
inductive Handler where
| user (id : Nat)
| noop
deriving DecidableEq

/-- A dynamically typed value, standing in for the dyn Any trait object. -/
inductive AnyV where
| str (s : String)
| other (id : Nat)
| amap (entries : List (String × AnyV))

/-- Models downcast to String on a dyn Any value. -/
def downcastString : AnyV → Option String
| AnyV.str s => some s
| _ => none

/-- The virtual-DOM node type of the source, with children inlined as values. -/
inductive VNode where
| element (tag : String) (attributes : List (String × String)) (children : List VNode) (event_handlers : List (String × Handler))
| text (s : String)
| fragment (children : List VNode)
| component (name : String) (props : List (String × String)) (state : AnyV)

/-- The patch type of the source. -/
inductive Patch where
| replace (node : VNode)
| add (node : VNode)
| remove
| updateAttributes (attrs : List (String × Option String))
| updateEventHandlers (handlers : List (String × Handler))
| updateState (key : String) (state : AnyV)

/-- HashMap lookup on the association-list model. -/
def getV {V : Type} : List (String × V) → String → Option V
| [], _ => none
| (k₁, v) :: rest, k => if k₁ = k then some v else getV rest k

/-- HashMap insert: replaces the binding of an existing key, else appends. -/
def insertM {V : Type} (k : String) (v : V) : List (String × V) → List (String × V)
| [] => [(k, v)]
| (k₁, v₁) :: rest => if k₁ = k then (k, v) :: rest else (k₁, v₁) :: insertM k v rest

/-- HashMap remove. -/
def removeM {V : Type} (k : String) : List (String × V) → List (String × V)
| [] => []
| (k₁, v₁) :: rest => if k₁ = k then rest else (k₁, v₁) :: removeM k rest

/-- Loop body of the first attribute-diff loop: a new attribute whose key is
absent from old, or bound to a different value there, is staged as Some. -/
def attrStageNew (old_attrs : List (String × String)) (d : List (String × Option String)) : String × String → List (String × Option String)
| (key, value) =>
  match getV old_attrs key with
  | some old_value => if old_value ≠ value then insertM key (some value) d else d
  | none => insertM key (some value) d

/-- Loop body of the second attribute-diff loop: an old key missing from the
new attributes is staged as None. -/
def attrStageOld (new_attrs : List (String × String)) (d : List (String × Option String)) : String × String → List (String × Option String)
| (key, _) => if (getV new_attrs key).isSome then d else insertM key none d

/-- The attribute diff map built by the Element-vs-Element branch of diff:
first loop over the new attributes staging new or changed values, then loop
over the old attributes staging a None for every key missing from new. -/
def attrsDiffMap (old_attrs new_attrs : List (String × String)) : List (String × Option String) :=
old_attrs.foldl (attrStageOld new_attrs) (new_attrs.foldl (attrStageNew old_attrs) [])

/-- Loop body of the first handler-diff loop: a new handler whose event is
absent from old, or with a different closure identity there, is staged. -/
def handlerStageNew (old_handlers : List (String × Handler)) (d : List (String × Handler)) : String × Handler → List (String × Handler)
| (event, handler) =>
  match getV old_handlers event with
  | some old_handler => if handler ≠ old_handler then insertM event handler d else d
  | none => insertM event handler d

/-- Loop body of the second handler-diff loop: an old event missing from the
new handlers is staged as the dummy no-op closure. -/
def handlerStageOld (new_handlers : List (String × Handler)) (d : List (String × Handler)) : String × Handler → List (String × Handler)
| (event, _) => if (getV new_handlers event).isSome then d else insertM event Handler.noop d

/-- The event-handler diff map built by the Element-vs-Element branch of
diff: new or pointer-changed handlers are staged, and every event present in
old but absent from new is staged as the dummy no-op closure. -/
def handlersDiffMap (old_handlers new_handlers : List (String × Handler)) : List (String × Handler) :=
old_handlers.foldl (handlerStageOld new_handlers) (new_handlers.foldl (handlerStageNew old_handlers) [])

/-- The state diff map built by the Component-vs-Component branch of diff:
values are compared only after a successful downcast to String. -/
def stateDiffMap (old_state new_state : AnyV) : List (String × AnyV) :=
match downcastString new_state with
| some ns =>
  match downcastString old_state with
  | some os => if os ≠ ns then insertM "state" (AnyV.str ns) [] else []
  | none => insertM "state" (AnyV.str ns) []
| none => []

mutual

/-- The diff function of the source, by structural position. -/
def diff (old new : VNode) : List Patch :=
match old, new with
| VNode.element old_tag old_attrs old_children old_handlers,
  VNode.element new_tag new_attrs new_children new_handlers =>
  if old_tag ≠ new_tag then [Patch.replace new]
  else
    (let ad := attrsDiffMap old_attrs new_attrs
     let hd := handlersDiffMap old_handlers new_handlers
     (if ad.isEmpty then [] else [Patch.updateAttributes ad])
     ++ (if hd.isEmpty then [] else [Patch.updateEventHandlers hd])
     ++ diffChildren old_children new_children)
| VNode.text old_text, VNode.text new_text =>
  if old_text ≠ new_text then [Patch.replace new] else []
| VNode.fragment old_children, VNode.fragment new_children =>
  diffChildren old_children new_children
| VNode.component old_name _ old_state, VNode.component new_name _ new_state =>
  if old_name ≠ new_name then [Patch.replace new]
  else
    (let sd := stateDiffMap old_state new_state
     if sd.isEmpty then [] else [Patch.updateState "state" (AnyV.amap sd)])
| _, _ => [Patch.replace new]
termination_by structural old

/-- Positional child diffing: pairs at a shared index are diffed recursively,
extra trailing old children each yield a Remove, extra trailing new children
each yield an Add, in order. -/
def diffChildren : List VNode → List VNode → List Patch
| [], ns => ns.map Patch.add
| os, [] => os.map (fun _ => Patch.remove)
| o :: os, n :: ns => diff o n ++ diffChildren os ns
termination_by structural os _ => os

end

/-- The attribute mutation loop of the UpdateAttributes arm of apply_patches:
a Some value inserts or overwrites the key, a None deletes it. -/
def applyAttrEntries (attributes : List (String × String)) : List (String × Option String) → List (String × String)
| [] => attributes
| (key, some val) :: rest => applyAttrEntries (insertM key val attributes) rest
| (key, none) :: rest => applyAttrEntries (removeM key attributes) rest

/-- The handler mutation loop of the UpdateEventHandlers arm of apply_patches:
every staged handler is inserted; nothing is ever removed. -/
def applyHandlerEntries (event_handlers : List (String × Handler)) : List (String × Handler) → List (String × Handler)
| [] => event_handlers
| (event, handler) :: rest => applyHandlerEntries (insertM event handler event_handlers) rest

/-- One step of the patch loop of apply_patches, acting on the children list
of the container root.  The result none models the panic of the unwrap on
last_mut when the children list is empty; when the last child has the wrong
variant for an update patch, the if-let of the source falls through and the
list is returned unchanged. -/
def applyPatchToChildren (cs : List VNode) : Patch → Option (List VNode)
| Patch.replace new_node => some [new_node]
| Patch.add node => some (cs ++ [node])
| Patch.remove => some cs.dropLast
| Patch.updateAttributes attrs =>
  match cs.getLast? with
  | none => none
  | some (VNode.element tag attributes children event_handlers) =>
    some (cs.dropLast ++ [VNode.element tag (applyAttrEntries attributes attrs) children event_handlers])
  | some _ => some cs
| Patch.updateEventHandlers handlers =>
  match cs.getLast? with
  | none => none
  | some (VNode.element tag attributes children event_handlers) =>
    some (cs.dropLast ++ [VNode.element tag attributes children (applyHandlerEntries event_handlers handlers)])
  | some _ => some cs
| Patch.updateState _ state =>
  match cs.getLast? with
  | none => none
  | some (VNode.component name props _) =>
    match downcastString state with
    | some s => some (cs.dropLast ++ [VNode.component name props (AnyV.str s)])
    | none => some cs
  | some _ => some cs

/-- The apply_patches function of the source.  A non-container root returns
immediately; for a container, the patch loop runs on its children list.
The result none models a panic inside the loop. -/
def apply_patches (root : VNode) (patches : List Patch) : Option VNode :=
match root with
| VNode.element tag attributes children event_handlers =>
  (patches.foldlM applyPatchToChildren children).map
    (fun cs => VNode.element tag attributes cs event_handlers)
| VNode.fragment children =>
  (patches.foldlM applyPatchToChildren children).map VNode.fragment
| _ => some root

/-- Keys of an association list are pairwise distinct, as in a real HashMap. -/
def nodupKeys {V : Type} : List (String × V) → Bool
| [] => true
| kv :: rest => (!(rest.map Prod.fst).contains kv.1) && nodupKeys rest

mutual

/-- Well-formed tree: every map in it has pairwise distinct keys, as any tree
built from real HashMap values does. -/
def wf : VNode → Bool
| VNode.element _ attributes children event_handlers =>
  nodupKeys attributes && nodupKeys event_handlers && wfList children
| VNode.text _ => true
| VNode.fragment children => wfList children
| VNode.component _ props _ => nodupKeys props
termination_by structural t => t

/-- Well-formedness of every node of a children list. -/
def wfList : List VNode → Bool
| [] => true
| c :: cs => wf c && wfList cs
termination_by structural cs => cs

end

mutual

/-- Fuel-bounded variant of diff, used to state termination of the source
recursion: every descent into a child list consumes one unit of fuel, and
exhausted fuel returns none. -/
def diffFuel : Nat → VNode → VNode → Option (List Patch)
| 0, _, _ => none
| Nat.succ n, old, new =>
  match old, new with
  | VNode.element old_tag old_attrs old_children old_handlers,
    VNode.element new_tag new_attrs new_children new_handlers =>
    if old_tag ≠ new_tag then some [Patch.replace new]
    else
      (diffChildrenFuel n old_children new_children).map
        (fun cps =>
          (let ad := attrsDiffMap old_attrs new_attrs
           let hd := handlersDiffMap old_handlers new_handlers
           (if ad.isEmpty then [] else [Patch.updateAttributes ad])
           ++ (if hd.isEmpty then [] else [Patch.updateEventHandlers hd])
           ++ cps))
  | VNode.text old_text, VNode.text new_text =>
    some (if old_text ≠ new_text then [Patch.replace new] else [])
  | VNode.fragment old_children, VNode.fragment new_children =>
    diffChildrenFuel n old_children new_children
  | VNode.component old_name _ old_state, VNode.component new_name _ new_state =>
    if old_name ≠ new_name then some [Patch.replace new]
    else
      (let sd := stateDiffMap old_state new_state
       some (if sd.isEmpty then [] else [Patch.updateState "state" (AnyV.amap sd)]))
  | _, _ => some [Patch.replace new]
termination_by n _ _ => (n, 0)

/-- Fuel-bounded positional child diffing. -/
def diffChildrenFuel (n : Nat) : List VNode → List VNode → Option (List Patch)
| [], ns => some (ns.map Patch.add)
| os, [] => some (os.map (fun _ => Patch.remove))
| o :: os, nn :: ns =>
  match diffFuel n o nn with
  | none => none
  | some p =>
    match diffChildrenFuel n os ns with
    | none => none
    | some rest => some (p ++ rest)
termination_by os _ => (n, os.length + 1)

end

/-- The old tree of the end-to-end scenario. -/
def oldTreeE2E : VNode :=
VNode.element "ul" [] [VNode.text "a", VNode.text "b"] []

/-- The new tree of the end-to-end scenario. -/
def newTreeE2E : VNode :=
VNode.element "ul" [] [VNode.text "a", VNode.text "c", VNode.text "d"] []

/-- A container root whose only (hence last) child is a Text node, the wrong
variant for every update patch. -/
def wrongTargetRoot : VNode :=
VNode.element "div" [] [VNode.text "a"] []

/-- A sample well-formed tree exercising all four node variants. -/
def sampleTree : VNode :=
VNode.element "div" [("id", "root"), ("class", "c")]
  [VNode.text "hello",
   VNode.fragment [VNode.text "x", VNode.element "span" [] [] [("hover", Handler.user 2)]],
   VNode.component "counter" [("step", "1")] (AnyV.str "0")]
  [("click", Handler.user 1)]

theorem getV_insertM_self {V : Type} (k : String) (v : V) (m : List (String × V)) :
getV (insertM k v m) k = some v := by
induction m with
| nil => simp [insertM, getV]
| cons kv rest ih =>
  obtain ⟨k₁, v₁⟩ := kv
  by_cases h : k₁ = k <;> simp [insertM, getV, h, ih]

theorem getV_insertM_ne {V : Type} {k₁ k : String} (v : V) (m : List (String × V)) (h : k₁ ≠ k) :
getV (insertM k₁ v m) k = getV m k := by
induction m with
| nil => simp [insertM, getV, h]
| cons kv rest ih =>
  obtain ⟨k₂, v₂⟩ := kv
  by_cases h₂ : k₂ = k₁
  · subst h₂
    simp [insertM, getV, h]
  · by_cases h₃ : k₂ = k
    · subst h₃
      simp [insertM, getV, h₂]
    · simp [insertM, getV, h₂, h₃, ih]

theorem getV_isSome_of_mem {V : Type} {m : List (String × V)} {k : String} {v : V} (h : (k, v) ∈ m) :
(getV m k).isSome = true := by
induction m with
| nil => simp at h
| cons kv rest ih =>
  obtain ⟨k₁, v₁⟩ := kv
  rcases List.mem_cons.mp h with h₁ | h₁
  · rw [Prod.mk.injEq] at h₁
    simp [getV, h₁.1]
  · by_cases h₂ : k₁ = k <;> simp [getV, h₂, ih h₁]

theorem getV_eq_none_of_not_mem_keys {V : Type} {m : List (String × V)} {k : String} (h : ¬ k ∈ m.map Prod.fst) :
getV m k = none := by
induction m with
| nil => simp [getV]
| cons kv rest ih =>
  obtain ⟨k₁, v₁⟩ := kv
  simp only [List.map_cons, List.mem_cons] at h
  push_neg at h
  have hne : ¬ k₁ = k := fun hh => h.1 hh.symm
  simp [getV, hne, ih h.2]

theorem nodupKeys_cons {V : Type} {k₁ : String} {v₁ : V} {rest : List (String × V)} (h : nodupKeys ((k₁, v₁) :: rest) = true) :
¬ k₁ ∈ rest.map Prod.fst ∧ nodupKeys rest = true := by
simp only [nodupKeys, Bool.and_eq_true, Bool.not_eq_true'] at h
refine ⟨?_, h.2⟩
intro hmem
have hc : (rest.map Prod.fst).contains k₁ = true := by simpa using hmem
rw [hc] at h
exact absurd h.1 (by simp)

theorem getV_of_mem_nodup {V : Type} {m : List (String × V)} {k : String} {v : V} (hm : nodupKeys m = true) (h : (k, v) ∈ m) :
getV m k = some v := by
induction m with
| nil => simp at h
| cons kv rest ih =>
  obtain ⟨k₁, v₁⟩ := kv
  obtain ⟨hk₁, hrest⟩ := nodupKeys_cons hm
  rcases List.mem_cons.mp h with h₁ | h₁
  · rw [Prod.mk.injEq] at h₁
    simp [getV, h₁.1, h₁.2]
  · have hkmem : k ∈ rest.map Prod.fst := List.mem_map.mpr ⟨(k, v), h₁, rfl⟩
    have hne : k₁ ≠ k := by
      intro he
      rw [he] at hk₁
      exact hk₁ hkmem
    simp [getV, hne, ih hrest h₁]

theorem eq_nil_of_getV_none {V : Type} (m : List (String × V)) (h : ∀ k, getV m k = none) : m = [] := by
cases m with
| nil => rfl
| cons kv rest =>
  obtain ⟨k₁, v₁⟩ := kv
  have := h k₁
  simp [getV] at this

theorem foldl_id {α β : Type} (f : β → α → β) (l : List α) (d : β) (h : ∀ x ∈ l, ∀ acc, f acc x = acc) : l.foldl f d = d := by
induction l generalizing d with
| nil => rfl
| cons x rest ih =>
  rw [List.foldl_cons, h x (List.mem_cons_self x rest), ih]
  intro y hy acc
  exact h y (List.mem_cons_of_mem x hy) acc

theorem getV_foldl_attrStageOld (na oa : List (String × String)) (d : List (String × Option String)) (k : String) :
getV (oa.foldl (attrStageOld na) d) k =
  if (getV oa k).isSome = true ∧ getV na k = none then some none else getV d k := by
induction oa generalizing d with
| nil => simp [getV]
| cons kv rest ih =>
  obtain ⟨k₁, v₁⟩ := kv
  rw [List.foldl_cons, ih]
  by_cases hk : k₁ = k
  · subst hk
    cases hna : getV na k₁ with
    | some v =>
      have hs : (getV na k₁).isSome = true := by simp [hna]
      simp [attrStageOld, hs, getV, hna]
    | none =>
      have hs : ¬ (getV na k₁).isSome = true := by simp [hna]
      simp only [attrStageOld, if_neg hs]
      by_cases hr : (getV rest k₁).isSome = true
      · simp [getV, hna, hr, getV_insertM_self]
      · simp [getV, hna, hr, getV_insertM_self]
  · have hstep : getV (attrStageOld na d (k₁, v₁)) k = getV d k := by
      simp only [attrStageOld]
      split
      · rfl
      · exact getV_insertM_ne none d hk
    simp [getV, hk, hstep]

theorem getV_foldl_handlerStageOld (nh oh : List (String × Handler)) (d : List (String × Handler)) (k : String) :
getV (oh.foldl (handlerStageOld nh) d) k =
  if (getV oh k).isSome = true ∧ getV nh k = none then some Handler.noop else getV d k := by
induction oh generalizing d with
| nil => simp [getV]
| cons kv rest ih =>
  obtain ⟨k₁, v₁⟩ := kv
  rw [List.foldl_cons, ih]
  by_cases hk : k₁ = k
  · subst hk
    cases hna : getV nh k₁ with
    | some v =>
      have hs : (getV nh k₁).isSome = true := by simp [hna]
      simp [handlerStageOld, hs, getV, hna]
    | none =>
      have hs : ¬ (getV nh k₁).isSome = true := by simp [hna]
      simp only [handlerStageOld, if_neg hs]
      by_cases hr : (getV rest k₁).isSome = true
      · simp [getV, hna, hr, getV_insertM_self]
      · simp [getV, hna, hr, getV_insertM_self]
  · have hstep : getV (handlerStageOld nh d (k₁, v₁)) k = getV d k := by
      simp only [handlerStageOld]
      split
      · rfl
      · exact getV_insertM_ne Handler.noop d hk
    simp [getV, hk, hstep]

theorem getV_foldl_attrStageNew (oa na : List (String × String)) (d : List (String × Option String)) (k : String) (hna : nodupKeys na = true) :
getV (na.foldl (attrStageNew oa) d) k =
  match getV na k with
  | some v => if getV oa k = some v then getV d k else some (some v)
  | none => getV d k := by
induction na generalizing d with
| nil => simp [getV]
| cons kv rest ih =>
  obtain ⟨k₁, v₁⟩ := kv
  obtain ⟨hk₁, hrest⟩ := nodupKeys_cons hna
  rw [List.foldl_cons, ih _ hrest]
  by_cases hk : k₁ = k
  · subst hk
    have hr : getV rest k₁ = none := getV_eq_none_of_not_mem_keys hk₁
    rw [hr]
    cases hoa : getV oa k₁ with
    | none => simp [attrStageNew, hoa, getV, getV_insertM_self]
    | some ov =>
      by_cases hve : ov = v₁
      · subst hve
        simp [attrStageNew, hoa, getV]
      · simp [attrStageNew, hoa, hve, getV, getV_insertM_self]
  · have hstep : getV (attrStageNew oa d (k₁, v₁)) k = getV d k := by
      simp only [attrStageNew]
      cases hcase : getV oa k₁ with
      | none => exact getV_insertM_ne (some v₁) d hk
      | some ov =>
        show getV (if ov ≠ v₁ then insertM k₁ (some v₁) d else d) k = getV d k
        by_cases hvv : ov ≠ v₁
        · rw [if_pos hvv]
          exact getV_insertM_ne (some v₁) d hk
        · rw [if_neg hvv]
    simp [getV, hk, hstep]

theorem getV_attrsDiffMap (oa na : List (String × String)) (k : String) (hna : nodupKeys na = true) :
getV (attrsDiffMap oa na) k =
  match getV na k, getV oa k with
  | some nv, some ov => if ov = nv then none else some (some nv)
  | some nv, none => some (some nv)
  | none, some _ => some none
  | none, none => none := by
unfold attrsDiffMap
rw [getV_foldl_attrStageOld, getV_foldl_attrStageNew _ _ _ _ hna]
rcases hn : getV na k with _ | nv <;> rcases ho : getV oa k with _ | ov
· simp [getV]
· simp
· simp [getV, ho]
· by_cases hv : ov = nv <;> simp [getV, ho, hv]

theorem getV_handlersDiffMap_removed (oh nh : List (String × Handler)) (k : String)
    (hold : (getV oh k).isSome = true) (hnew : getV nh k = none) :
getV (handlersDiffMap oh nh) k = some Handler.noop := by
unfold handlersDiffMap
rw [getV_foldl_handlerStageOld]
simp [hold, hnew]

theorem map_const_remove (os : List VNode) : os.map (fun _ => Patch.remove) = List.replicate os.length Patch.remove := by
induction os with
| nil => rfl
| cons o os ih => simp [List.replicate_succ, ih]

theorem diffChildren_eq (os ns : List VNode) :
diffChildren os ns = (List.zipWith diff os ns).flatten
  ++ (if ns.length ≤ os.length
      then List.replicate (os.length - ns.length) Patch.remove
      else (ns.drop os.length).map Patch.add) := by
induction os generalizing ns with
| nil =>
  cases ns with
  | nil => rfl
  | cons n ns => simp [diffChildren]
| cons o os ih =>
  cases ns with
  | nil => simp [diffChildren, map_const_remove, List.replicate_succ]
  | cons n ns =>
    rw [diffChildren, ih]
    simp [List.append_assoc, Nat.succ_sub_succ]

theorem wfList_mem {cs : List VNode} (h : wfList cs = true) : ∀ c ∈ cs, wf c = true := by
induction cs with
| nil =>
  intro c hc
  simp at hc
| cons c₀ rest ih =>
  intro c hc
  rw [wfList, Bool.and_eq_true] at h
  rcases List.mem_cons.mp hc with h₁ | h₁
  · rw [h₁]
    exact h.1
  · exact ih h.2 c h₁

theorem diffChildren_self_of (cs : List VNode) (h : ∀ c ∈ cs, diff c c = []) : diffChildren cs cs = [] := by
induction cs with
| nil => rfl
| cons c rest ih =>
  rw [diffChildren, h c (List.mem_cons_self c rest), ih (fun c₂ hc₂ => h c₂ (List.mem_cons_of_mem c hc₂))]
  rfl

theorem diff_self_aux : ∀ (n : Nat) (t : VNode), sizeOf t ≤ n → wf t = true → diff t t = [] := by
intro n
induction n with
| zero =>
  intro t ht _
  exfalso
  cases t <;> simp at ht
| succ n ih =>
  intro t ht hw
  cases t with
  | text s => simp [diff]
  | element tag attrs cs ehs =>
    simp only [wf, Bool.and_eq_true] at hw
    obtain ⟨⟨ha, he⟩, hcs⟩ := hw
    have hattrs : attrsDiffMap attrs attrs = [] := by
      have hinner : attrs.foldl (attrStageNew attrs) [] = [] := by
        refine foldl_id _ _ _ (fun kv hkv acc => ?_)
        obtain ⟨k, v⟩ := kv
        have hget : getV attrs k = some v := getV_of_mem_nodup ha hkv
        simp [attrStageNew, hget]
      unfold attrsDiffMap
      rw [hinner]
      refine foldl_id _ _ _ (fun kv hkv acc => ?_)
      obtain ⟨k, v⟩ := kv
      have hget : (getV attrs k).isSome = true := getV_isSome_of_mem hkv
      simp [attrStageOld, hget]
    have hhandlers : handlersDiffMap ehs ehs = [] := by
      have hinner : ehs.foldl (handlerStageNew ehs) [] = [] := by
        refine foldl_id _ _ _ (fun kv hkv acc => ?_)
        obtain ⟨k, v⟩ := kv
        have hget : getV ehs k = some v := getV_of_mem_nodup he hkv
        simp [handlerStageNew, hget]
      unfold handlersDiffMap
      rw [hinner]
      refine foldl_id _ _ _ (fun kv hkv acc => ?_)
      obtain ⟨k, v⟩ := kv
      have hget : (getV ehs k).isSome = true := getV_isSome_of_mem hkv
      simp [handlerStageOld, hget]
    have hchildren : diffChildren cs cs = [] := by
      refine diffChildren_self_of cs (fun c hc => ih c ?_ (wfList_mem hcs c hc))
      have h₁ : sizeOf c < sizeOf cs := List.sizeOf_lt_of_mem hc
      have h₂ : sizeOf (VNode.element tag attrs cs ehs) = 1 + sizeOf tag + sizeOf attrs + sizeOf cs + sizeOf ehs := by
        simp
      omega
    simp [diff, hattrs, hhandlers, hchildren]
  | fragment cs =>
    rw [wf] at hw
    have hchildren : diffChildren cs cs = [] := by
      refine diffChildren_self_of cs (fun c hc => ih c ?_ (wfList_mem hw c hc))
      have h₁ : sizeOf c < sizeOf cs := List.sizeOf_lt_of_mem hc
      have h₂ : sizeOf (VNode.fragment cs) = 1 + sizeOf cs := by
        simp
      omega
    simp [diff, hchildren]
  | component nm props st =>
    cases hds : downcastString st <;> simp [diff, stateDiffMap, hds]

theorem diffChildrenFuel_eq (n : Nat) (os ns : List VNode)
    (h : ∀ o ∈ os, ∀ nn, diffFuel n o nn = some (diff o nn)) :
diffChildrenFuel n os ns = some (diffChildren os ns) := by
induction os generalizing ns with
| nil =>
  cases ns <;> simp [diffChildrenFuel, diffChildren]
| cons o os ih =>
  cases ns with
  | nil => simp [diffChildrenFuel, diffChildren]
  | cons nn ns =>
    have h₁ := h o (List.mem_cons_self o os) nn
    have h₂ := ih ns (fun o₂ ho₂ nn₂ => h o₂ (List.mem_cons_of_mem o ho₂) nn₂)
    simp [diffChildrenFuel, diffChildren, h₁, h₂]

theorem diffFuel_spec : ∀ (n : Nat) (old new : VNode), sizeOf old < n → diffFuel n old new = some (diff old new) := by
intro n
induction n with
| zero =>
  intro old new ht
  omega
| succ n ih =>
  intro old new ht
  have hch : ∀ (cs : List VNode), sizeOf cs ≤ sizeOf old → ∀ ncs, diffChildrenFuel n cs ncs = some (diffChildren cs ncs) := by
    intro cs hcs ncs
    refine diffChildrenFuel_eq n cs ncs (fun o ho nn => ih o nn ?_)
    have h₁ : sizeOf o < sizeOf cs := List.sizeOf_lt_of_mem ho
    omega
  cases old with
  | text s =>
    cases new <;> simp [diffFuel, diff]
  | element tag attrs cs ehs =>
    have hsz : sizeOf cs ≤ sizeOf (VNode.element tag attrs cs ehs) := by
      have h₂ : sizeOf (VNode.element tag attrs cs ehs) = 1 + sizeOf tag + sizeOf attrs + sizeOf cs + sizeOf ehs := by
        simp
      omega
    cases new with
    | element ntag nattrs ncs nehs =>
      by_cases htag : tag ≠ ntag
      · simp [diffFuel, diff, htag]
      · simp [diffFuel, diff, htag, hch cs hsz ncs]
    | text s => simp [diffFuel, diff]
    | fragment ncs => simp [diffFuel, diff]
    | component nm nprops nst => simp [diffFuel, diff]
  | fragment cs =>
    have hsz : sizeOf cs ≤ sizeOf (VNode.fragment cs) := by
      have h₂ : sizeOf (VNode.fragment cs) = 1 + sizeOf cs := by
        simp
      omega
    cases new with
    | element ntag nattrs ncs nehs => simp [diffFuel, diff]
    | text s => simp [diffFuel, diff]
    | fragment ncs =>
      rw [diff]
      simp [diffFuel, hch cs hsz ncs]
    | component nm nprops nst => simp [diffFuel, diff]
  | component nm props st =>
    cases new with
    | element ntag nattrs ncs nehs => simp [diffFuel, diff]
    | text s => simp [diffFuel, diff]
    | fragment ncs => simp [diffFuel, diff]
    | component nm₂ nprops nst =>
      by_cases hnm : nm ≠ nm₂
      · simp [diffFuel, diff, hnm]
      · simp [diffFuel, diff, hnm]

theorem getV_isSome_applyHandlerEntries (m entries : List (String × Handler)) (k : String)
    (h : (getV m k).isSome = true ∨ (getV entries k).isSome = true) :
(getV (applyHandlerEntries m entries) k).isSome = true := by
induction entries generalizing m with
| nil =>
  rcases h with h | h
  · simpa [applyHandlerEntries] using h
  · simp [getV] at h
| cons kv rest ih =>
  obtain ⟨k₁, h₁⟩ := kv
  rw [applyHandlerEntries]
  by_cases hk : k₁ = k
  · subst hk
    exact ih (insertM k₁ h₁ m) (Or.inl (by simp [getV_insertM_self]))
  · rcases h with h | h
    · refine ih _ (Or.inl ?_)
      rw [getV_insertM_ne h₁ m hk]
      exact h
    · have hr : (getV rest k).isSome = true := by
        simpa [getV, hk] using h
      exact ih _ (Or.inr hr)

/-- C1: in the end-to-end scenario, diff of the old ul tree against the new
one is exactly [Replace(Text c), Add(Text d)] as claimed, but applying those
patches to the old tree yields Element(ul, [Text c, Text d]) — the Replace
arm of apply_patches overwrites the entire children list with a singleton —
which is not structurally equal to the new tree, whose children are
[Text a, Text c, Text d]. -/
theorem end_to_end_divergence :
diff oldTreeE2E newTreeE2E = [Patch.replace (VNode.text "c"), Patch.add (VNode.text "d")]
∧ apply_patches oldTreeE2E (diff oldTreeE2E newTreeE2E)
    = some (VNode.element "ul" [] [VNode.text "c", VNode.text "d"] [])
∧ ¬ (VNode.element "ul" [] [VNode.text "c", VNode.text "d"] [] = newTreeE2E) :=
⟨rfl, rfl, by simp [newTreeE2E]⟩

/-- C2: applying an UpdateAttributes, UpdateEventHandlers or UpdateState
patch to a container whose last child has the wrong variant for that patch
is a silent no-op: apply_patches returns the root unchanged and surfaces no
error, instead of failing fast as specified. -/
theorem wrong_variant_silent_noop :
apply_patches wrongTargetRoot [Patch.updateAttributes [("x", some "1")]] = some wrongTargetRoot
∧ apply_patches wrongTargetRoot [Patch.updateEventHandlers [("click", Handler.user 0)]] = some wrongTargetRoot
∧ apply_patches wrongTargetRoot [Patch.updateState "state" (AnyV.str "s")] = some wrongTargetRoot :=
⟨rfl, rfl, rfl⟩

/-- C3: for an Element-vs-Element diff with equal tags, every event key
present in old but absent from new is mapped to the dummy no-op handler in
the single UpdateEventHandlers patch the node emits, and applying that
patch map to any handler map only inserts, so the key stays present and the
key set never shrinks. -/
theorem handler_deletion_marker (tag : String) (oa na : List (String × String)) (os ns : List VNode)
    (oh nh : List (String × Handler)) (k : String)
    (hold : (getV oh k).isSome = true) (hnew : getV nh k = none) :
getV (handlersDiffMap oh nh) k = some Handler.noop
∧ diff (VNode.element tag oa os oh) (VNode.element tag na ns nh)
    = (if (attrsDiffMap oa na).isEmpty then [] else [Patch.updateAttributes (attrsDiffMap oa na)])
      ++ Patch.updateEventHandlers (handlersDiffMap oh nh) :: diffChildren os ns
∧ (∀ m : List (String × Handler),
    (getV (applyHandlerEntries m (handlersDiffMap oh nh)) k).isSome = true
    ∧ ∀ k₂ : String, (getV m k₂).isSome = true →
        (getV (applyHandlerEntries m (handlersDiffMap oh nh)) k₂).isSome = true) := by
have hmark : getV (handlersDiffMap oh nh) k = some Handler.noop :=
  getV_handlersDiffMap_removed oh nh k hold hnew
have hne : ¬ (handlersDiffMap oh nh).isEmpty = true := by
  intro hemp
  rw [List.isEmpty_iff] at hemp
  rw [hemp] at hmark
  simp [getV] at hmark
refine ⟨hmark, ?_, ?_⟩
· rw [diff]
  simp [hne]
· intro m
  constructor
  · exact getV_isSome_applyHandlerEntries m _ k (Or.inr (by simp [hmark]))
  · intro k₂ hk₂
    exact getV_isSome_applyHandlerEntries m _ k₂ (Or.inl hk₂)

/-- C3 witness: a click handler present in old and absent from new is staged
as the no-op marker. -/
theorem handler_deletion_marker_witness :
getV (handlersDiffMap [("click", Handler.user 1)] []) "click" = some Handler.noop :=
(handler_deletion_marker "div" [] [] [] [] [("click", Handler.user 1)] [] "click" rfl rfl).1

/-- C4 counterexample: two Component nodes with the same name and distinct
opaque states of a non-String dynamic type diff to the empty patch list, so
no UpdateState patch is emitted although the states differ. -/
theorem component_state_diff_counterexample :
(¬ AnyV.other 0 = AnyV.other 1)
∧ diff (VNode.component "c" [] (AnyV.other 0)) (VNode.component "c" [] (AnyV.other 1)) = [] :=
⟨by simp, rfl⟩

/-- C4 amended: for Component-vs-Component diffs, a name mismatch emits
exactly [Replace(new)]; with equal names a patch is emitted only when the
new state downcasts to a String the old state does not equal, and that
patch is UpdateState with key "state" whose payload is the boxed singleton
map from "state" to the new String, not the bare value; when the new state
is not a String (even if the states differ), or both states are the same
String, no patch is emitted. -/
theorem component_diff_amended (nm oN nN : String) (oP nP : List (String × String)) (oS nS : AnyV) :
(oN ≠ nN → diff (VNode.component oN oP oS) (VNode.component nN nP nS) = [Patch.replace (VNode.component nN nP nS)])
∧ (downcastString nS = none → diff (VNode.component nm oP oS) (VNode.component nm nP nS) = [])
∧ (∀ s : String, downcastString nS = some s → downcastString oS = some s →
    diff (VNode.component nm oP oS) (VNode.component nm nP nS) = [])
∧ (∀ s : String, downcastString nS = some s → ¬ downcastString oS = some s →
    diff (VNode.component nm oP oS) (VNode.component nm nP nS)
      = [Patch.updateState "state" (AnyV.amap [("state", AnyV.str s)])]) := by
refine ⟨?_, ?_, ?_, ?_⟩
· intro h
  simp [diff, h]
· intro h
  simp [diff, stateDiffMap, h]
· intro s hn ho
  simp [diff, stateDiffMap, hn, ho]
· intro s hn ho
  rcases hos : downcastString oS with _ | s₂
  · simp [diff, stateDiffMap, hn, hos, insertM]
  · have hs₂ : s₂ ≠ s := fun he => ho (by rw [hos, he])
    simp [diff, stateDiffMap, hn, hos, hs₂, insertM]

/-- C4 amended witness: a non-String old state and a String new state yield
the UpdateState patch with the boxed singleton map payload. -/
theorem component_diff_amended_witness :
diff (VNode.component "c" [] (AnyV.other 0)) (VNode.component "c" [] (AnyV.str "x"))
  = [Patch.updateState "state" (AnyV.amap [("state", AnyV.str "x")])] :=
(component_diff_amended "c" "a" "b" [] [] (AnyV.other 0) (AnyV.str "x")).2.2.2 "x" rfl (by simp [downcastString])

/-- C5: for Element-vs-Element diffs with equal tags, the node emits at most
one batched UpdateAttributes patch; its map holds exactly the changed keys —
Some(new value) for a key new or changed in the new node, None for a key
dropped from the old node, and no entry for an unchanged key — and when no
attribute changed the staged map is empty so no patch is emitted. -/
theorem attribute_batching (tag : String) (oa na : List (String × String)) (os ns : List VNode)
    (oh nh : List (String × Handler)) (hna : nodupKeys na = true) :
(diff (VNode.element tag oa os oh) (VNode.element tag na ns nh)
  = (if (attrsDiffMap oa na).isEmpty then [] else [Patch.updateAttributes (attrsDiffMap oa na)])
    ++ (if (handlersDiffMap oh nh).isEmpty then [] else [Patch.updateEventHandlers (handlersDiffMap oh nh)])
    ++ diffChildren os ns)
∧ (∀ k : String, getV (attrsDiffMap oa na) k =
    match getV na k, getV oa k with
    | some nv, some ov => if ov = nv then none else some (some nv)
    | some nv, none => some (some nv)
    | none, some _ => some none
    | none, none => none)
∧ ((∀ k : String, getV oa k = getV na k) → attrsDiffMap oa na = []) := by
refine ⟨?_, fun k => getV_attrsDiffMap oa na k hna, ?_⟩
· rw [diff]
  simp
· intro hsame
  refine eq_nil_of_getV_none _ (fun k => ?_)
  rw [getV_attrsDiffMap oa na k hna]
  rcases hn : getV na k with _ | nv
  · rw [hsame k, hn]
  · rw [hsame k, hn]
    simp

/-- C5 witness: old attributes a=1, b=2 against new attributes a=1, c=3
stage exactly b as a deletion and c as an addition, in one batched patch. -/
theorem attribute_batching_witness :
getV (attrsDiffMap [("a", "1"), ("b", "2")] [("a", "1"), ("c", "3")]) "b" = some none
∧ getV (attrsDiffMap [("a", "1"), ("b", "2")] [("a", "1"), ("c", "3")]) "c" = some (some "3")
∧ diff (VNode.element "div" [("a", "1"), ("b", "2")] [] [])
       (VNode.element "div" [("a", "1"), ("c", "3")] [] [])
    = [Patch.updateAttributes (attrsDiffMap [("a", "1"), ("b", "2")] [("a", "1"), ("c", "3")])] := by
have h := attribute_batching "div" [("a", "1"), ("b", "2")] [("a", "1"), ("c", "3")] [] [] [] [] rfl
refine ⟨?_, ?_, ?_⟩
· rw [h.2.1 "b"]
  rfl
· rw [h.2.1 "c"]
  rfl
· rw [h.1]
  rfl

/-- C6: child lists of same-variant containers are diffed positionally over
the shared prefix, extra trailing old children yield exactly that many
Remove patches, extra trailing new children yield exactly that many Add
patches in order carrying the respective child, and an identical
well-formed child at a shared index contributes no patch. -/
theorem child_list_diff (os ns : List VNode) :
(diffChildren os ns = (List.zipWith diff os ns).flatten
  ++ (if ns.length ≤ os.length
      then List.replicate (os.length - ns.length) Patch.remove
      else (ns.drop os.length).map Patch.add))
∧ (∀ (tag : String) (oa na : List (String × String)) (oh nh : List (String × Handler)),
    diff (VNode.element tag oa os oh) (VNode.element tag na ns nh)
      = (if (attrsDiffMap oa na).isEmpty then [] else [Patch.updateAttributes (attrsDiffMap oa na)])
        ++ (if (handlersDiffMap oh nh).isEmpty then [] else [Patch.updateEventHandlers (handlersDiffMap oh nh)])
        ++ diffChildren os ns)
∧ diff (VNode.fragment os) (VNode.fragment ns) = diffChildren os ns
∧ (∀ c : VNode, wf c = true → diff c c = []) := by
refine ⟨diffChildren_eq os ns, ?_, ?_, ?_⟩
· intro tag oa na oh nh
  rw [diff]
  simp
· rw [diff]
· exact fun c hc => diff_self_aux (sizeOf c) c (Nat.le_refl _) hc

/-- C6 witness: an identical text child contributes no patch. -/
theorem child_list_diff_witness :
diff (VNode.text "x") (VNode.text "x") = [] :=
(child_list_diff [] []).2.2.2 (VNode.text "x") rfl

/-- C7: the diff output is ordered top-down then left-to-right — the node
emits its own UpdateAttributes and UpdateEventHandlers patches first, then
the patches of each child subtree contiguously in child order, then the
trailing Remove or Add patches for length differences. -/
theorem diff_ordering (tag : String) (oa na : List (String × String)) (os ns : List VNode)
    (oh nh : List (String × Handler)) :
diff (VNode.element tag oa os oh) (VNode.element tag na ns nh)
  = (if (attrsDiffMap oa na).isEmpty then [] else [Patch.updateAttributes (attrsDiffMap oa na)])
    ++ (if (handlersDiffMap oh nh).isEmpty then [] else [Patch.updateEventHandlers (handlersDiffMap oh nh)])
    ++ ((List.zipWith diff os ns).flatten
    ++ (if ns.length ≤ os.length
        then List.replicate (os.length - ns.length) Patch.remove
        else (ns.drop os.length).map Patch.add))
∧ diff (VNode.fragment os) (VNode.fragment ns)
  = (List.zipWith diff os ns).flatten
    ++ (if ns.length ≤ os.length
        then List.replicate (os.length - ns.length) Patch.remove
        else (ns.drop os.length).map Patch.add) := by
constructor
· rw [diff]
  simp [diffChildren_eq]
· rw [diff, diffChildren_eq]

/-- C8: diffing a well-formed tree against a structurally identical tree
yields the empty patch list, for every node variant. -/
theorem noop_diff_empty (t : VNode) (h : wf t = true) : diff t t = [] :=
diff_self_aux (sizeOf t) t (Nat.le_refl _) h

/-- C8 witness: a sample tree with attributes, handlers, nested fragment and
component children diffs against itself to the empty list. -/
theorem noop_diff_empty_witness : wf sampleTree = true ∧ diff sampleTree sampleTree = [] :=
⟨rfl, noop_diff_empty sampleTree rfl⟩

/-- C9: diff is total — on every pair of trees the recursion terminates
within fuel bounded by the size of the old tree, and the fuel-bounded
variant returns some list, never an error. -/
theorem diff_total (old new : VNode) :
diffFuel (1 + sizeOf old) old new = some (diff old new) :=
diffFuel_spec (1 + sizeOf old) old new (by omega)

/-- C10: apply_patches on a non-container root (Text or Component) returns
immediately: the root is unchanged, no patch is applied and no error is
surfaced, for every patch list including non-empty ones. -/
theorem noncontainer_apply_unchanged (s nm : String) (props : List (String × String)) (st : AnyV) (patches : List Patch) :
apply_patches (VNode.text s) patches = some (VNode.text s)
∧ apply_patches (VNode.component nm props st) patches = some (VNode.component nm props st) :=
⟨rfl, rfl⟩

end Vdom
